import Mathlib

/-!
Verification development for the reversible transition-matrix MCMC sampler
declared in `msmtools/estimation/dense/sample_rev.h`.  The repository ships
only the header (function prototypes); the numerical bodies live in a C file
that is not part of the source tree here.  Every operation below is therefore
modelled from the specification document: matrices of doubles become total
functions `Nat → Nat → ℚ` (exact rationals, so floating-point tolerance
statements become exact equalities), the hidden pseudo-random stream becomes
an explicit argument indexed by sweep number and matrix position, and the
Metropolis acceptance test — whose algebraic form the specification leaves
open — is abstracted into a boolean drawn from that stream.
-/

/-- Modelled from the spec: one record of the pseudo-random stream consumed by
an elementary move.  `delta` scales the proposed perturbation of the pivot
entry; `accept` is the outcome of the Metropolis acceptance test (the exact
density-ratio formula is an open question in the spec, so the decision is
abstracted as the drawn boolean). -/
structure MoveRand where
  delta : ℚ
  accept : Bool
deriving DecidableEq

/-- Dense matrix model: a total map from (row, column) to an exact value. -/
abbrev Mat : Type := ℕ → ℕ → ℚ

/-- Random records for one sweep, indexed by the matrix pair they drive. -/
abbrev SweepRand : Type := ℕ → ℕ → MoveRand

/-- Random records for a whole run, indexed by sweep number first. -/
abbrev RunRand : Type := ℕ → SweepRand

/-- Modelled from the spec: the body of `_update_step` is missing from the
tree.  Per the spec it proposes a perturbation of magnitude controlled by
`random_walk_stepsize` for the pivot `v1` of a linked triple `(v0, v1, v2)`,
rejects outright (returning the input `v1`, never consulting the density
ratio) whenever the perturbed triple would contain a negative entry, and
otherwise returns the perturbed pivot exactly when the abstracted Metropolis
test accepts.  The compensation keeping `v0 + v1 + v2` constant is split
evenly between the two linked neighbours.  The count exponents `c0 c1 c2`
only weight the density ratio, which is abstracted into `r.accept`. -/
def _update_step (v0 v1 v2 c0 c1 c2 : ℚ) (random_walk_stepsize : ℚ)
    (r : MoveRand) : ℚ :=
  if v1 + r.delta * random_walk_stepsize < 0 ∨
      v0 - r.delta * random_walk_stepsize / 2 < 0 ∨
      v2 - r.delta * random_walk_stepsize / 2 < 0 then v1
  else if r.accept then v1 + r.delta * random_walk_stepsize else v1

/-- Modelled from the spec: callers of `_update_step` derive the updated
values of the two linked neighbour entries from the conservation law.  The
move returns the new triple `(v0, v1, v2)`. -/
def moveTriple (stepsize : ℚ) (r : MoveRand) (v0 v1 v2 c0 c1 c2 : ℚ) :
    ℚ × ℚ × ℚ :=
  let v1' := _update_step v0 v1 v2 c0 c1 c2 stepsize r
  (v0 - (v1' - v1) / 2, v1', v2 - (v1' - v1) / 2)

/-- Pointwise write of one matrix entry (the model of `X[i*n+j] = v`). -/
def setEntry (X : Mat) (i j : ℕ) (v : ℚ) : Mat :=
  fun p q => if p = i ∧ q = j then v else X p q

/-- Modelled from the spec: one elementary move applied at the off-diagonal
position `(i, j)`: the local conservation group is the triple
`(X i i, X i j, X j j)` — the pivot plus its two implicit diagonal
compensation terms — weighted by the corresponding count entries. -/
def applyMove (C : Mat) (stepsize : ℚ) (r : SweepRand) (X : Mat)
    (i j : ℕ) : Mat :=
  let t := moveTriple stepsize (r i j) (X i i) (X i j) (X j j)
    (C i i) (C i j) (C j j)
  setEntry (setEntry (setEntry X i i t.1) j j t.2.2) i j t.2.1

/-- Modelled from the spec: an unordered pair is eligible for a move when its
observed counts carry positive weight. -/
def eligiblePair (C : Mat) (p : ℕ × ℕ) : Prop :=
  0 < C p.1 p.2 + C p.2 p.1

instance (C : Mat) (p : ℕ × ℕ) : Decidable (eligiblePair C p) := by
  unfold eligiblePair; infer_instance

/-- One visit of the dense sweep at an (upper-triangle) pair. -/
def densePairStep (C : Mat) (stepsize : ℚ) (r : SweepRand) (X : Mat)
    (p : ℕ × ℕ) : Mat :=
  if eligiblePair C p then applyMove C stepsize r X p.1 p.2 else X

/-- The fixed, documented visiting order of the dense sweep: row-major over
the strict upper triangle of an n by n matrix. -/
def densePairs (n : ℕ) : List (ℕ × ℕ) :=
  (List.range n).flatMap (fun i =>
    (((List.range n).filter (fun j => i < j)).map (fun j => (i, j))))

/-- One full dense sweep over the auxiliary matrix. -/
def denseSweep (C : Mat) (n : ℕ) (stepsize : ℚ) (r : SweepRand)
    (X : Mat) : Mat :=
  (densePairs n).foldl (densePairStep C stepsize r) X

/-- Modelled from the spec: the body of `_update` is missing from the tree.
It runs `n_step` dense sweeps and, after each full sweep, accumulates the
post-sweep state of `X` into the running sum `sumC`.  Returns the final
`(X, sumC)`. -/
def _update (C sumC X : Mat) (n : ℕ) (n_step : ℕ) (stepsize : ℚ)
    (rand : RunRand) : Mat × Mat :=
  match n_step with
  | 0 => (X, sumC)
  | Nat.succ t =>
      let X' := denseSweep C n stepsize (rand 0) X
      _update C (sumC + X') X' n t stepsize (fun s => rand (s + 1))

/-- The auxiliary-matrix state after `t` dense sweeps. -/
def sweepIter (C : Mat) (n : ℕ) (stepsize : ℚ) (rand : RunRand)
    (X : Mat) : ℕ → Mat
  | 0 => X
  | Nat.succ t => denseSweep C n stepsize (rand t) (sweepIter C n stepsize rand X t)

/-- The sum of row `i` of the leading n by n block (model of `_sum_row`). -/
def _sum_row (X : Mat) (n : ℕ) (i : ℕ) : ℚ :=
  ∑ j ∈ Finset.range n, X i j

/-- The grand total over the n by n block (model of `_sum_all`). -/
def _sum_all (X : Mat) (n : ℕ) : ℚ :=
  ∑ i ∈ Finset.range n, _sum_row X n i

/-- Modelled from the spec: the body of `_normalize_all` is missing from the
tree.  Every row of the n by n block whose sum is nonzero is rescaled so it
sums to one; rows summing to zero are left untouched instead of dividing by
zero. -/
def _normalize_all (X : Mat) (n : ℕ) : Mat :=
  fun p q =>
    if p < n ∧ q < n ∧ _sum_row X n p ≠ 0 then X p q / _sum_row X n p
    else X p q

/-- The sum of the listed entries of row `i` under a sparsity pattern. -/
def rowListedSum (X : Mat) (pat : List (ℕ × ℕ)) (i : ℕ) : ℚ :=
  ((pat.filter (fun p => p.1 = i)).map (fun p => X p.1 p.2)).sum

/-- Modelled from the spec: the body of `_normalize_all_sparse` is missing
from the tree.  For each row the normalizing sum ranges only over the listed
entries of that row, only listed entries are rescaled, and rows whose listed
sum is zero (in particular rows with no listed entries) stay untouched. -/
def _normalize_all_sparse (X : Mat) (I J : List ℕ) (n n_idx : ℕ) : Mat :=
  let pat := I.zip J
  fun p q =>
    if (p, q) ∈ pat ∧ rowListedSum X pat p ≠ 0 then
      X p q / rowListedSum X pat p
    else X p q

/-- Modelled from the spec: one visit of the sparse sweep at a listed pair.
A move fires only at an upper-triangle listed pair whose counts are eligible
and whose two diagonal compensation positions are themselves listed —
positions absent from the pattern are implicitly zero and are never
updated. -/
def sparsePairStep (C : Mat) (pat : List (ℕ × ℕ)) (stepsize : ℚ)
    (r : SweepRand) (X : Mat) (p : ℕ × ℕ) : Mat :=
  if p.1 < p.2 ∧ eligiblePair C p ∧ (p.1, p.1) ∈ pat ∧ (p.2, p.2) ∈ pat
  then applyMove C stepsize r X p.1 p.2 else X

/-- One full sparse sweep: visits the listed pairs in their given order. -/
def sparseSweep (C : Mat) (pat : List (ℕ × ℕ)) (stepsize : ℚ)
    (r : SweepRand) (X : Mat) : Mat :=
  pat.foldl (sparsePairStep C pat stepsize r) X

/-- Modelled from the spec: the sweep loop of `_update_sparse`, accumulating
the post-sweep state into `sumX` once per sweep.  Returns `(X, sumX)`. -/
def sparseRun (C : Mat) (pat : List (ℕ × ℕ)) (X sumX : Mat)
    (n_step : ℕ) (stepsize : ℚ) (rand : RunRand) : Mat × Mat :=
  match n_step with
  | 0 => (X, sumX)
  | Nat.succ t =>
      let X' := sparseSweep C pat stepsize (rand 0) X
      sparseRun C pat X' (sumX + X') t stepsize (fun s => rand (s + 1))

/-- Modelled from the spec: every precondition of the sparse sampler —
positive dimension, coordinate arrays of length `n_idx`, all indices inside
`[0, n)` — checked before anything runs. -/
def validPattern (I J : List ℕ) (n n_idx : ℕ) : Prop :=
  0 < n ∧ I.length = n_idx ∧ J.length = n_idx ∧
    (∀ i ∈ I, i < n) ∧ (∀ j ∈ J, j < n)

instance (I J : List ℕ) (n n_idx : ℕ) : Decidable (validPattern I J n n_idx) := by
  unfold validPattern; infer_instance

/-- Modelled from the spec: the body of `_update_sparse` is missing from the
tree.  All precondition checks run before any mutation; a failed check
yields `none` and the caller keeps the buffers exactly as they were. -/
def _update_sparse (C sumC X sumX : Mat) (I J : List ℕ) (n n_idx n_step : ℕ)
    (stepsize : ℚ) (rand : RunRand) : Option (Mat × Mat) :=
  if validPattern I J n n_idx then
    some (sparseRun C (I.zip J) X sumX n_step stepsize rand)
  else none

/-- The buffers an external caller observes after a sparse call: on a
precondition violation the call returns without touching them. -/
def _update_sparse_result (C sumC X sumX : Mat) (I J : List ℕ)
    (n n_idx n_step : ℕ) (stepsize : ℚ) (rand : RunRand) : Mat × Mat :=
  (_update_sparse C sumC X sumX I J n n_idx n_step stepsize rand).getD (X, sumX)

/-- Modelled from the spec: the dense sampler checks its dimension
precondition up front as well. -/
def _update_checked (C sumC X : Mat) (n n_step : ℕ) (stepsize : ℚ)
    (rand : RunRand) : Option (Mat × Mat) :=
  if 0 < n then some (_update C sumC X n n_step stepsize rand) else none

/-- The buffers an external caller observes after a dense call. -/
def _update_result (C sumC X : Mat) (n n_step : ℕ) (stepsize : ℚ)
    (rand : RunRand) : Mat × Mat :=
  (_update_checked C sumC X n n_step stepsize rand).getD (X, sumC)

/-- Modelled from the spec: the speed-test variant benchmarks the same core
loop with no behaviour differences.  Its sweep is written as direct
structural recursion rather than a fold. -/
def speedtestSweep (C : Mat) (pat : List (ℕ × ℕ)) (stepsize : ℚ)
    (r : SweepRand) : List (ℕ × ℕ) → Mat → Mat
  | [], X => X
  | p :: ps, X =>
      speedtestSweep C pat stepsize r ps (sparsePairStep C pat stepsize r X p)

/-- Modelled from the spec: the sweep loop of the speed-test variant. -/
def speedtestRun (C : Mat) (pat : List (ℕ × ℕ)) (X sumX : Mat)
    (n_step : ℕ) (stepsize : ℚ) (rand : RunRand) : Mat × Mat :=
  match n_step with
  | 0 => (X, sumX)
  | Nat.succ t =>
      let X' := speedtestSweep C pat stepsize (rand 0) pat X
      speedtestRun C pat X' (sumX + X') t stepsize (fun s => rand (s + 1))

/-- Modelled from the spec: the body of `_update_sparse_speedtest` is
missing from the tree; it is required to be numerically identical to
`_update_sparse`. -/
def _update_sparse_speedtest (C sumC X sumX : Mat) (I J : List ℕ)
    (n n_idx n_step : ℕ) (stepsize : ℚ) (rand : RunRand) :
    Option (Mat × Mat) :=
  if validPattern I J n n_idx then
    some (speedtestRun C (I.zip J) X sumX n_step stepsize rand)
  else none

example :
    _update_step 1 1 1 0 0 0 1 ⟨1/2, true⟩ = 3/2 := by
  with_unfolding_all decide

example :
    _update_step 1 1 1 0 0 0 1 ⟨-3, true⟩ = 1 := by
  with_unfolding_all decide

/-! ### Generic fold lemmas -/

/-- An invariant preserved by every step of a left fold is preserved by the
whole fold. -/
theorem foldlPreserves {α β : Type} (Inv : β → Prop) (f : β → α → β) :
    ∀ (L : List α) (X : β), (∀ Y a, a ∈ L → Inv Y → Inv (f Y a)) →
      Inv X → Inv (L.foldl f X)
  | [], _, _, hX => hX
  | a :: L, X, hstep, hX =>
      foldlPreserves Inv f L (f X a)
        (fun Y b hb hY => hstep Y b (List.mem_cons_of_mem a hb) hY)
        (hstep X a (List.mem_cons_self a L) hX)

/-- A fold whose step is the identity outside a predicate equals the fold of
the real step over the filtered list. -/
theorem foldl_ite_filter {α β : Type} (P : α → Prop) [DecidablePred P]
    (g : β → α → β) :
    ∀ (L : List α) (X : β),
      L.foldl (fun Y a => if P a then g Y a else Y) X =
        (L.filter (fun a => decide (P a))).foldl g X
  | [], _ => rfl
  | a :: L, X => by
      by_cases h : P a <;>
        simp [List.foldl_cons, h, List.filter_cons, foldl_ite_filter P g L]

/-! ### Elementary move lemmas -/

/-- The rejection guard of `_update_step`: a proposal that would drive any of
the three linked entries negative returns the pivot unchanged, for either
outcome of the acceptance test. -/
theorem _update_step_reject (v0 v1 v2 c0 c1 c2 s : ℚ) (r : MoveRand)
    (h : v1 + r.delta * s < 0 ∨ v0 - r.delta * s / 2 < 0 ∨
      v2 - r.delta * s / 2 < 0) :
    _update_step v0 v1 v2 c0 c1 c2 s r = v1 := by
  unfold _update_step
  rw [if_pos h]

/-- The move conserves the total of its linked triple. -/
theorem moveTriple_sum (s : ℚ) (r : MoveRand) (v0 v1 v2 c0 c1 c2 : ℚ) :
    (moveTriple s r v0 v1 v2 c0 c1 c2).1 +
      (moveTriple s r v0 v1 v2 c0 c1 c2).2.1 +
      (moveTriple s r v0 v1 v2 c0 c1 c2).2.2 = v0 + v1 + v2 := by
  simp only [moveTriple]
  ring

/-- The move keeps all three entries of a non-negative triple
non-negative. -/
theorem moveTriple_nonneg (s : ℚ) (r : MoveRand) (v0 v1 v2 c0 c1 c2 : ℚ)
    (h0 : 0 ≤ v0) (h1 : 0 ≤ v1) (h2 : 0 ≤ v2) :
    0 ≤ (moveTriple s r v0 v1 v2 c0 c1 c2).1 ∧
      0 ≤ (moveTriple s r v0 v1 v2 c0 c1 c2).2.1 ∧
      0 ≤ (moveTriple s r v0 v1 v2 c0 c1 c2).2.2 := by
  by_cases hg : v1 + r.delta * s < 0 ∨ v0 - r.delta * s / 2 < 0 ∨
      v2 - r.delta * s / 2 < 0
  · have hstep := _update_step_reject v0 v1 v2 c0 c1 c2 s r hg
    simp only [moveTriple, hstep]
    refine ⟨by linarith, h1, by linarith⟩
  · have hg' := hg
    push_neg at hg'
    obtain ⟨g1, g2, g3⟩ := hg'
    by_cases ha : r.accept
    · have hstep : _update_step v0 v1 v2 c0 c1 c2 s r = v1 + r.delta * s := by
        unfold _update_step
        rw [if_neg hg, if_pos ha]
      simp only [moveTriple, hstep]
      refine ⟨by linarith, by linarith, by linarith⟩
    · have hstep : _update_step v0 v1 v2 c0 c1 c2 s r = v1 := by
        unfold _update_step
        rw [if_neg hg, if_neg ha]
      simp only [moveTriple, hstep]
      refine ⟨by linarith, h1, by linarith⟩

/-! ### Entry update and summation lemmas -/

theorem setEntry_same (X : Mat) (i j : ℕ) (v : ℚ) :
    setEntry X i j v i j = v := by
  simp [setEntry]

theorem setEntry_other (X : Mat) (i j : ℕ) (v : ℚ) (p q : ℕ)
    (h : ¬(p = i ∧ q = j)) : setEntry X i j v p q = X p q := by
  simp only [setEntry, if_neg h]

theorem _sum_row_setEntry_ne (X : Mat) (n i j : ℕ) (v : ℚ) (p : ℕ)
    (hp : p ≠ i) : _sum_row (setEntry X i j v) n p = _sum_row X n p := by
  unfold _sum_row
  refine Finset.sum_congr rfl (fun q _ => ?_)
  exact setEntry_other X i j v p q (fun hc => hp hc.1)

theorem _sum_row_setEntry_eq (X : Mat) (n i j : ℕ) (v : ℚ) (hj : j < n) :
    _sum_row (setEntry X i j v) n i = _sum_row X n i + (v - X i j) := by
  unfold _sum_row
  have hcong : ∀ q ∈ Finset.range n,
      setEntry X i j v i q = X i q + (if q = j then v - X i j else 0) := by
    intro q _
    by_cases hq : q = j
    · subst hq; simp [setEntry]
    · simp [setEntry, hq]
  rw [Finset.sum_congr rfl hcong, Finset.sum_add_distrib]
  have : (∑ q ∈ Finset.range n, if q = j then v - X i j else 0) = v - X i j := by
    rw [Finset.sum_ite_eq' (Finset.range n) j (fun _ => v - X i j)]
    simp [Finset.mem_range.mpr hj]
  rw [this]

theorem _sum_all_setEntry (X : Mat) (n i j : ℕ) (v : ℚ) (hi : i < n)
    (hj : j < n) :
    _sum_all (setEntry X i j v) n = _sum_all X n + (v - X i j) := by
  unfold _sum_all
  have hcong : ∀ p ∈ Finset.range n,
      _sum_row (setEntry X i j v) n p =
        _sum_row X n p + (if p = i then v - X i j else 0) := by
    intro p _
    by_cases hp : p = i
    · subst hp; rw [_sum_row_setEntry_eq X n p j v hj]; simp
    · rw [_sum_row_setEntry_ne X n i j v p hp]; simp [hp]
  rw [Finset.sum_congr rfl hcong, Finset.sum_add_distrib]
  have : (∑ p ∈ Finset.range n, if p = i then v - X i j else 0) = v - X i j := by
    rw [Finset.sum_ite_eq' (Finset.range n) i (fun _ => v - X i j)]
    simp [Finset.mem_range.mpr hi]
  rw [this]

/-- Writing the three entries of a conservation group shifts the grand total
by the change of the group total. -/
theorem _sum_all_write3 (X : Mat) (n i j : ℕ) (a b c : ℚ) (hij : i ≠ j)
    (hi : i < n) (hj : j < n) :
    _sum_all (setEntry (setEntry (setEntry X i i a) j j c) i j b) n
      = _sum_all X n + ((a + b + c) - (X i i + X i j + X j j)) := by
  have hji : j ≠ i := fun h => hij h.symm
  have r1 : setEntry X i i a j j = X j j :=
    setEntry_other X i i a j j (fun hc => hji hc.1)
  have r2 : setEntry (setEntry X i i a) j j c i j = X i j := by
    rw [setEntry_other _ j j c i j (fun hc => hij hc.1),
      setEntry_other X i i a i j (fun hc => hji hc.2)]
  rw [_sum_all_setEntry _ n i j b hi hj, r2,
    _sum_all_setEntry _ n j j c hj hj, r1,
    _sum_all_setEntry X n i i a hi hi]
  ring

/-- One elementary move leaves the grand total of the matrix unchanged. -/
theorem applyMove_sum_all (C : Mat) (s : ℚ) (r : SweepRand) (X : Mat)
    (n i j : ℕ) (hij : i ≠ j) (hi : i < n) (hj : j < n) :
    _sum_all (applyMove C s r X i j) n = _sum_all X n := by
  simp only [applyMove]
  rw [_sum_all_write3 X n i j _ _ _ hij hi hj]
  have hsum := moveTriple_sum s (r i j) (X i i) (X i j) (X j j)
    (C i i) (C i j) (C j j)
  linarith

/-- One elementary move keeps a non-negative matrix non-negative. -/
theorem applyMove_nonneg (C : Mat) (s : ℚ) (r : SweepRand) (X : Mat)
    (i j : ℕ) (hX : ∀ p q, 0 ≤ X p q) :
    ∀ p q, 0 ≤ applyMove C s r X i j p q := by
  intro p q
  have hm := moveTriple_nonneg s (r i j) (X i i) (X i j) (X j j)
    (C i i) (C i j) (C j j) (hX i i) (hX i j) (hX j j)
  simp only [applyMove, setEntry]
  split_ifs with h1 h2 h3
  · exact hm.2.1
  · exact hm.2.2
  · exact hm.1
  · exact hX p q

/-- An elementary move at `(i, j)` touches nothing but the pivot and the two
diagonal compensation positions. -/
theorem applyMove_frame (C : Mat) (s : ℚ) (r : SweepRand) (X : Mat)
    (i j p q : ℕ) (h1 : ¬(p = i ∧ q = j)) (h2 : ¬(p = j ∧ q = j))
    (h3 : ¬(p = i ∧ q = i)) :
    applyMove C s r X i j p q = X p q := by
  simp only [applyMove, setEntry, if_neg h1, if_neg h2, if_neg h3]

theorem mem_densePairs {n : ℕ} {p : ℕ × ℕ} (h : p ∈ densePairs n) :
    p.1 < p.2 ∧ p.2 < n := by
  unfold densePairs at h
  simp only [List.mem_flatMap, List.mem_map, List.mem_filter,
    List.mem_range] at h
  obtain ⟨i, _, j, ⟨hjn, hij⟩, rfl⟩ := h
  exact ⟨by simpa using hij, hjn⟩

/-- A full dense sweep conserves the grand total. -/
theorem denseSweep_sum_all (C : Mat) (n : ℕ) (s : ℚ) (r : SweepRand)
    (X : Mat) : _sum_all (denseSweep C n s r X) n = _sum_all X n := by
  unfold denseSweep
  refine foldlPreserves (fun Y => _sum_all Y n = _sum_all X n) _
    (densePairs n) X ?_ rfl
  intro Y p hp hY
  unfold densePairStep
  split_ifs with he
  · obtain ⟨h1, h2⟩ := mem_densePairs hp
    rw [applyMove_sum_all C s r Y n p.1 p.2 (Nat.ne_of_lt h1)
      (lt_trans h1 h2) h2, hY]
  · exact hY

/-- A full dense sweep keeps the matrix non-negative. -/
theorem denseSweep_nonneg (C : Mat) (n : ℕ) (s : ℚ) (r : SweepRand)
    (X : Mat) (hX : ∀ p q, 0 ≤ X p q) :
    ∀ p q, 0 ≤ denseSweep C n s r X p q := by
  unfold denseSweep
  refine foldlPreserves (fun Y => ∀ p q, 0 ≤ Y p q) _ (densePairs n) X ?_ hX
  intro Y p _ hY
  unfold densePairStep
  split_ifs with he
  · exact applyMove_nonneg C s r Y p.1 p.2 hY
  · exact hY

/-- A full sparse sweep conserves the grand total, provided the listed
positions are in range. -/
theorem sparseSweep_sum_all (C : Mat) (pat : List (ℕ × ℕ)) (s : ℚ)
    (r : SweepRand) (X : Mat) (n : ℕ)
    (hb : ∀ p ∈ pat, p.1 < n ∧ p.2 < n) :
    _sum_all (sparseSweep C pat s r X) n = _sum_all X n := by
  unfold sparseSweep
  refine foldlPreserves (fun Y => _sum_all Y n = _sum_all X n) _ pat X ?_ rfl
  intro Y p hp hY
  unfold sparsePairStep
  split_ifs with he
  · obtain ⟨hlt, _, _, _⟩ := he
    obtain ⟨hpn, hqn⟩ := hb p hp
    rw [applyMove_sum_all C s r Y n p.1 p.2 (Nat.ne_of_lt hlt) hpn hqn, hY]
  · exact hY

/-- A full sparse sweep keeps the matrix non-negative. -/
theorem sparseSweep_nonneg (C : Mat) (pat : List (ℕ × ℕ)) (s : ℚ)
    (r : SweepRand) (X : Mat) (hX : ∀ p q, 0 ≤ X p q) :
    ∀ p q, 0 ≤ sparseSweep C pat s r X p q := by
  unfold sparseSweep
  refine foldlPreserves (fun Y => ∀ p q, 0 ≤ Y p q) _ pat X ?_ hX
  intro Y p _ hY
  unfold sparsePairStep
  split_ifs with he
  · exact applyMove_nonneg C s r Y p.1 p.2 hY
  · exact hY

/-- A sparse sweep never writes an unlisted position. -/
theorem sparseSweep_frame (C : Mat) (pat : List (ℕ × ℕ)) (s : ℚ)
    (r : SweepRand) (X : Mat) (p q : ℕ) (hpq : (p, q) ∉ pat) :
    sparseSweep C pat s r X p q = X p q := by
  unfold sparseSweep
  refine foldlPreserves (fun Y => Y p q = X p q) _ pat X ?_ rfl
  intro Y a ha hY
  unfold sparsePairStep
  split_ifs with he
  · obtain ⟨hlt, helig, hd1, hd2⟩ := he
    rw [applyMove_frame C s r Y a.1 a.2 p q ?_ ?_ ?_, hY]
    · intro hc
      exact hpq (by rw [hc.1, hc.2]; exact ha)
    · intro hc
      exact hpq (by rw [hc.1, hc.2]; exact hd2)
    · intro hc
      exact hpq (by rw [hc.1, hc.2]; exact hd1)
  · exact hY

/-! ### Run-level lemmas -/

theorem sweepIter_one (C : Mat) (n : ℕ) (s : ℚ) (rand : RunRand) (X : Mat) :
    sweepIter C n s rand X 1 = denseSweep C n s (rand 0) X := rfl

theorem sweepIter_shift (C : Mat) (n : ℕ) (s : ℚ) (rand : RunRand)
    (X : Mat) :
    ∀ k, sweepIter C n s (fun t => rand (t + 1))
        (denseSweep C n s (rand 0) X) k = sweepIter C n s rand X (k + 1)
  | 0 => rfl
  | Nat.succ t => by
      simp only [sweepIter]
      rw [sweepIter_shift C n s rand X t]
      rfl

theorem _update_fst (C : Mat) (n : ℕ) (s : ℚ) :
    ∀ (k : ℕ) (sumC X : Mat) (rand : RunRand),
      (_update C sumC X n k s rand).1 = sweepIter C n s rand X k
  | 0, _, _, _ => rfl
  | Nat.succ t, sumC, X, rand => by
      simp only [_update]
      rw [_update_fst C n s t _ _ _, sweepIter_shift]

theorem _update_snd (C : Mat) (n : ℕ) (s : ℚ) :
    ∀ (k : ℕ) (sumC X : Mat) (rand : RunRand),
      (_update C sumC X n k s rand).2
        = sumC + ∑ t ∈ Finset.range k, sweepIter C n s rand X (t + 1)
  | 0, sumC, _, _ => by simp [_update]
  | Nat.succ k, sumC, X, rand => by
      simp only [_update]
      rw [_update_snd C n s k _ _ _]
      have hsh : ∀ t ∈ Finset.range k,
          sweepIter C n s (fun u => rand (u + 1))
            (denseSweep C n s (rand 0) X) (t + 1)
            = sweepIter C n s rand X (t + 1 + 1) := by
        intro t _
        exact sweepIter_shift C n s rand X (t + 1)
      rw [Finset.sum_congr rfl hsh,
        Finset.sum_range_succ' (fun t => sweepIter C n s rand X (t + 1)) k]
      rw [sweepIter_one C n s rand X]
      abel

theorem sweepIter_sum_all (C : Mat) (n : ℕ) (s : ℚ) (rand : RunRand)
    (X : Mat) :
    ∀ k, _sum_all (sweepIter C n s rand X k) n = _sum_all X n
  | 0 => rfl
  | Nat.succ t => by
      simp only [sweepIter]
      rw [denseSweep_sum_all, sweepIter_sum_all C n s rand X t]

theorem sweepIter_nonneg (C : Mat) (n : ℕ) (s : ℚ) (rand : RunRand)
    (X : Mat) (hX : ∀ p q, 0 ≤ X p q) :
    ∀ k p q, 0 ≤ sweepIter C n s rand X k p q
  | 0 => hX
  | Nat.succ t => by
      simp only [sweepIter]
      exact denseSweep_nonneg C n s (rand t) _
        (sweepIter_nonneg C n s rand X hX t)

theorem sparseRun_fst (C : Mat) (pat : List (ℕ × ℕ)) (s : ℚ) :
    ∀ (k : ℕ) (X sumX : Mat) (rand : RunRand) (p q : ℕ), (p, q) ∉ pat →
      (sparseRun C pat X sumX k s rand).1 p q = X p q
  | 0, _, _, _, _, _, _ => rfl
  | Nat.succ k, X, sumX, rand, p, q, hpq => by
      simp only [sparseRun]
      rw [sparseRun_fst C pat s k _ _ _ p q hpq,
        sparseSweep_frame C pat s (rand 0) X p q hpq]

theorem sparseRun_sum_all (C : Mat) (pat : List (ℕ × ℕ)) (s : ℚ) (n : ℕ)
    (hb : ∀ p ∈ pat, p.1 < n ∧ p.2 < n) :
    ∀ (k : ℕ) (X sumX : Mat) (rand : RunRand),
      _sum_all ((sparseRun C pat X sumX k s rand).1) n = _sum_all X n
  | 0, _, _, _ => rfl
  | Nat.succ k, X, sumX, rand => by
      simp only [sparseRun]
      rw [sparseRun_sum_all C pat s n hb k _ _ _,
        sparseSweep_sum_all C pat s (rand 0) X n hb]

theorem sparseRun_nonneg (C : Mat) (pat : List (ℕ × ℕ)) (s : ℚ) :
    ∀ (k : ℕ) (X sumX : Mat) (rand : RunRand), (∀ p q, 0 ≤ X p q) →
      ∀ p q, 0 ≤ (sparseRun C pat X sumX k s rand).1 p q
  | 0, _, _, _, hX => hX
  | Nat.succ k, X, sumX, rand, hX => by
      simp only [sparseRun]
      exact sparseRun_nonneg C pat s k _ _ _
        (sparseSweep_nonneg C pat s (rand 0) X hX)

theorem _update_nonneg_fst (C : Mat) (n : ℕ) (s : ℚ) (k : ℕ)
    (sumC X : Mat) (rand : RunRand) (hX : ∀ p q, 0 ≤ X p q) :
    ∀ p q, 0 ≤ (_update C sumC X n k s rand).1 p q := by
  rw [_update_fst]
  exact sweepIter_nonneg C n s rand X hX k

/-! ### Sweep alignment lemmas -/

theorem denseSweep_filter (C : Mat) (n : ℕ) (s : ℚ) (r : SweepRand)
    (X : Mat) :
    denseSweep C n s r X =
      ((densePairs n).filter (fun p => decide (eligiblePair C p))).foldl
        (fun Y p => applyMove C s r Y p.1 p.2) X := by
  unfold denseSweep densePairStep
  exact foldl_ite_filter (eligiblePair C)
    (fun Y p => applyMove C s r Y p.1 p.2) (densePairs n) X

/-- The guard under which a sparse visit actually moves. -/
def sparseGuard (C : Mat) (pat : List (ℕ × ℕ)) (p : ℕ × ℕ) : Prop :=
  p.1 < p.2 ∧ eligiblePair C p ∧ (p.1, p.1) ∈ pat ∧ (p.2, p.2) ∈ pat

instance (C : Mat) (pat : List (ℕ × ℕ)) (p : ℕ × ℕ) :
    Decidable (sparseGuard C pat p) := by
  unfold sparseGuard; infer_instance

theorem sparseSweep_filter (C : Mat) (pat : List (ℕ × ℕ)) (s : ℚ)
    (r : SweepRand) (X : Mat) :
    sparseSweep C pat s r X =
      (pat.filter (fun p => decide (sparseGuard C pat p))).foldl
        (fun Y p => applyMove C s r Y p.1 p.2) X := by
  unfold sparseSweep sparsePairStep
  exact foldl_ite_filter (sparseGuard C pat)
    (fun Y p => applyMove C s r Y p.1 p.2) pat X

/-- When the moved pairs of the sparse pattern agree, in order, with the
eligible pairs of the dense sweep, one sparse sweep equals one dense
sweep. -/
theorem sweep_equiv (C : Mat) (pat : List (ℕ × ℕ)) (n : ℕ) (s : ℚ)
    (hfil : pat.filter (fun p => decide (sparseGuard C pat p)) =
      (densePairs n).filter (fun p => decide (eligiblePair C p)))
    (r : SweepRand) (X : Mat) :
    sparseSweep C pat s r X = denseSweep C n s r X := by
  rw [sparseSweep_filter, denseSweep_filter, hfil]

/-- When the sweeps agree, the full sparse run equals the full dense run. -/
theorem run_equiv (C : Mat) (pat : List (ℕ × ℕ)) (n : ℕ) (s : ℚ)
    (hfil : pat.filter (fun p => decide (sparseGuard C pat p)) =
      (densePairs n).filter (fun p => decide (eligiblePair C p))) :
    ∀ (k : ℕ) (X sumX : Mat) (rand : RunRand),
      sparseRun C pat X sumX k s rand = _update C sumX X n k s rand
  | 0, _, _, _ => rfl
  | Nat.succ k, X, sumX, rand => by
      simp only [sparseRun, _update]
      rw [sweep_equiv C pat n s hfil (rand 0) X,
        run_equiv C pat n s hfil k _ _ _]

/-! ### Speed-test variant lemmas -/

theorem speedtestSweep_foldl (C : Mat) (pat : List (ℕ × ℕ)) (s : ℚ)
    (r : SweepRand) :
    ∀ (L : List (ℕ × ℕ)) (X : Mat),
      speedtestSweep C pat s r L X =
        L.foldl (sparsePairStep C pat s r) X
  | [], _ => rfl
  | p :: L, X => by
      simp only [speedtestSweep, List.foldl_cons]
      exact speedtestSweep_foldl C pat s r L _

theorem speedtestRun_eq (C : Mat) (pat : List (ℕ × ℕ)) (s : ℚ) :
    ∀ (k : ℕ) (X sumX : Mat) (rand : RunRand),
      speedtestRun C pat X sumX k s rand = sparseRun C pat X sumX k s rand
  | 0, _, _, _ => rfl
  | Nat.succ k, X, sumX, rand => by
      simp only [speedtestRun, sparseRun]
      rw [speedtestSweep_foldl C pat s (rand 0) pat X]
      exact speedtestRun_eq C pat s k _ _ _

/-! ### Normalization lemmas -/

theorem _normalize_all_rowsum (X : Mat) (n i : ℕ) (hi : i < n)
    (hs : _sum_row X n i ≠ 0) :
    _sum_row (_normalize_all X n) n i = 1 := by
  unfold _sum_row _normalize_all
  have hcong : ∀ j ∈ Finset.range n,
      (if i < n ∧ j < n ∧ _sum_row X n i ≠ 0 then X i j / _sum_row X n i
        else X i j) = X i j / _sum_row X n i := by
    intro j hj
    exact if_pos ⟨hi, Finset.mem_range.mp hj, hs⟩
  rw [Finset.sum_congr rfl hcong, ← Finset.sum_div]
  exact div_self hs

theorem _normalize_all_zero_row (X : Mat) (n i : ℕ)
    (hs : _sum_row X n i = 0) : ∀ q, _normalize_all X n i q = X i q := by
  intro q
  unfold _normalize_all
  exact if_neg (fun hc => hc.2.2 hs)

theorem zero_row_all_zero (X : Mat) (n i : ℕ)
    (hX : ∀ p q, 0 ≤ X p q) (hs : _sum_row X n i = 0) :
    ∀ q, q < n → X i q = 0 := by
  intro q hq
  unfold _sum_row at hs
  have := (Finset.sum_eq_zero_iff_of_nonneg
    (fun j _ => hX i j)).mp hs
  exact this q (Finset.mem_range.mpr hq)

theorem _normalize_all_sparse_unlisted (X : Mat) (I J : List ℕ)
    (n n_idx : ℕ) (p q : ℕ) (hpq : (p, q) ∉ I.zip J) :
    _normalize_all_sparse X I J n n_idx p q = X p q := by
  unfold _normalize_all_sparse
  exact if_neg (fun hc => hpq hc.1)

theorem _normalize_all_sparse_listed (X : Mat) (I J : List ℕ)
    (n n_idx : ℕ) (p q : ℕ) (hpq : (p, q) ∈ I.zip J)
    (hs : rowListedSum X (I.zip J) p ≠ 0) :
    _normalize_all_sparse X I J n n_idx p q
      = X p q / rowListedSum X (I.zip J) p := by
  unfold _normalize_all_sparse
  exact if_pos ⟨hpq, hs⟩

theorem _normalize_all_sparse_empty_row (X : Mat) (I J : List ℕ)
    (n n_idx : ℕ) (p : ℕ)
    (hrow : (I.zip J).filter (fun a => a.1 = p) = []) :
    ∀ q, _normalize_all_sparse X I J n n_idx p q = X p q := by
  intro q
  refine _normalize_all_sparse_unlisted X I J n n_idx p q (fun hmem => ?_)
  have : ((p, q) : ℕ × ℕ) ∈ (I.zip J).filter (fun a => a.1 = p) :=
    List.mem_filter.mpr ⟨hmem, by simp⟩
  rw [hrow] at this
  exact (List.not_mem_nil _ this).elim

theorem rowListedSum_congr (X Y : Mat) (pat : List (ℕ × ℕ)) (i : ℕ)
    (h : ∀ a ∈ pat, a.1 = i → X a.1 a.2 = Y a.1 a.2) :
    rowListedSum X pat i = rowListedSum Y pat i := by
  unfold rowListedSum
  have : ∀ a ∈ pat.filter (fun p => p.1 = i),
      X a.1 a.2 = Y a.1 a.2 := by
    intro a ha
    obtain ⟨hmem, hfst⟩ := List.mem_filter.mp ha
    exact h a hmem (by simpa using hfst)
  rw [List.map_congr_left this]

/-! ### Claim theorems -/

/-- C1: every elementary move on a linked triple `(v0, v1, v2)` with
non-negative entries preserves the sum of its local conservation group, and
consequently the conserved grand total of the auxiliary matrix is identical
before and after every full run of the dense sampler and of the sparse
sampler, for every number of sweeps `n_step ≥ 0`. -/
theorem C1_conservation :
    (∀ (s : ℚ) (r : MoveRand) (v0 v1 v2 c0 c1 c2 : ℚ),
      0 ≤ v0 → 0 ≤ v1 → 0 ≤ v2 →
      (moveTriple s r v0 v1 v2 c0 c1 c2).1 +
        (moveTriple s r v0 v1 v2 c0 c1 c2).2.1 +
        (moveTriple s r v0 v1 v2 c0 c1 c2).2.2 = v0 + v1 + v2) ∧
    (∀ (C sumC X : Mat) (n n_step : ℕ) (s : ℚ) (rand : RunRand),
      _sum_all ((_update C sumC X n n_step s rand).1) n = _sum_all X n) ∧
    (∀ (C sumC X sumX : Mat) (I J : List ℕ) (n n_idx n_step : ℕ) (s : ℚ)
      (rand : RunRand) (R : Mat × Mat),
      _update_sparse C sumC X sumX I J n n_idx n_step s rand = some R →
      _sum_all R.1 n = _sum_all X n) := by
  refine ⟨?_, ?_, ?_⟩
  · intro s r v0 v1 v2 c0 c1 c2 _ _ _
    exact moveTriple_sum s r v0 v1 v2 c0 c1 c2
  · intro C sumC X n n_step s rand
    rw [_update_fst]
    exact sweepIter_sum_all C n s rand X n_step
  · intro C sumC X sumX I J n n_idx n_step s rand R h
    unfold _update_sparse at h
    by_cases hv : validPattern I J n n_idx
    · rw [if_pos hv] at h
      obtain ⟨_, _, hJlen, hIb, hJb⟩ := hv
      have hb : ∀ p ∈ I.zip J, p.1 < n ∧ p.2 < n := by
        intro p hp
        obtain ⟨h1, h2⟩ := List.of_mem_zip hp
        exact ⟨hIb p.1 h1, hJb p.2 h2⟩
      rw [← Option.some.inj h]
      exact sparseRun_sum_all C (I.zip J) s n hb n_step X sumX rand
    · rw [if_neg hv] at h
      exact (Option.noConfusion h)

/-- Witness for C1 at concrete inputs. -/
theorem C1_conservation_witness :
    ((moveTriple 1 ⟨1/2, true⟩ 1 1 1 0 0 0).1 +
      (moveTriple 1 ⟨1/2, true⟩ 1 1 1 0 0 0).2.1 +
      (moveTriple 1 ⟨1/2, true⟩ 1 1 1 0 0 0).2.2 = 1 + 1 + 1) ∧
    _sum_all ((sparseRun (fun _ _ => 1) ([0].zip [1]) (fun _ _ => 1)
      (fun _ _ => 0) 1 1 (fun _ _ _ => ⟨1/2, true⟩)).1) 2
      = _sum_all (fun _ _ => 1) 2 := by
  constructor
  · exact C1_conservation.1 1 ⟨1/2, true⟩ 1 1 1 0 0 0
      (by norm_num) (by norm_num) (by norm_num)
  · refine C1_conservation.2.2 (fun _ _ => 1) (fun _ _ => 0) (fun _ _ => 1)
      (fun _ _ => 0) [0] [1] 2 1 1 1 (fun _ _ _ => ⟨1/2, true⟩) _ ?_
    unfold _update_sparse
    rw [if_pos (by decide)]

/-- C2: a proposed perturbation that would drive any of the three linked
entries negative is rejected — the returned pivot equals the input `v1` — for
either outcome of the (abstracted) density-ratio test, and consequently every
entry of the auxiliary matrix stays non-negative after every elementary move
and after every dense or sparse run. -/
theorem C2_nonneg :
    (∀ (v0 v1 v2 c0 c1 c2 s d : ℚ), 0 ≤ v0 → 0 ≤ v1 → 0 ≤ v2 →
      (v1 + d * s < 0 ∨ v0 - d * s / 2 < 0 ∨ v2 - d * s / 2 < 0) →
      ∀ acc : Bool, _update_step v0 v1 v2 c0 c1 c2 s ⟨d, acc⟩ = v1) ∧
    (∀ (C : Mat) (s : ℚ) (r : SweepRand) (X : Mat) (i j : ℕ),
      (∀ p q, 0 ≤ X p q) → ∀ p q, 0 ≤ applyMove C s r X i j p q) ∧
    (∀ (C sumC X : Mat) (n n_step : ℕ) (s : ℚ) (rand : RunRand),
      (∀ p q, 0 ≤ X p q) →
      ∀ p q, 0 ≤ (_update C sumC X n n_step s rand).1 p q) ∧
    (∀ (C sumC X sumX : Mat) (I J : List ℕ) (n n_idx n_step : ℕ) (s : ℚ)
      (rand : RunRand) (R : Mat × Mat), (∀ p q, 0 ≤ X p q) →
      _update_sparse C sumC X sumX I J n n_idx n_step s rand = some R →
      ∀ p q, 0 ≤ R.1 p q) := by
  refine ⟨?_, ?_, ?_, ?_⟩
  · intro v0 v1 v2 c0 c1 c2 s d _ _ _ h acc
    exact _update_step_reject v0 v1 v2 c0 c1 c2 s ⟨d, acc⟩ h
  · intro C s r X i j hX
    exact applyMove_nonneg C s r X i j hX
  · intro C sumC X n n_step s rand hX
    exact _update_nonneg_fst C n s n_step sumC X rand hX
  · intro C sumC X sumX I J n n_idx n_step s rand R hX h
    unfold _update_sparse at h
    by_cases hv : validPattern I J n n_idx
    · rw [if_pos hv] at h
      rw [← Option.some.inj h]
      exact sparseRun_nonneg C (I.zip J) s n_step X sumX rand hX
    · rw [if_neg hv] at h
      exact (Option.noConfusion h)

/-- Witness for C2 at concrete inputs. -/
theorem C2_nonneg_witness :
    _update_step 0 0 0 1 1 1 1 ⟨1, true⟩ = 0 ∧
    (0 : ℚ) ≤ (_update (fun _ _ => 1) (fun _ _ => 0) (fun _ _ => 1) 2 1 1
      (fun _ _ _ => ⟨-1/2, true⟩)).1 0 1 := by
  constructor
  · exact C2_nonneg.1 0 0 0 1 1 1 1 1 (le_refl 0) (le_refl 0) (le_refl 0)
      (Or.inr (Or.inl (by norm_num))) true
  · exact C2_nonneg.2.2.1 (fun _ _ => 1) (fun _ _ => 0) (fun _ _ => 1) 2 1 1
      (fun _ _ _ => ⟨-1/2, true⟩) (fun _ _ => by norm_num) 0 1

/-- C3: after `_normalize_all`, every row of the n by n block whose original
sum is nonzero sums exactly to 1 (the exact-rational counterpart of the
floating-point tolerance), and every row whose original sum is zero is left
untouched — in particular, for the non-negative matrices of the sampler it
remains an all-zero row — instead of causing a division by zero. -/
theorem C3_normalize :
    ∀ (X : Mat) (n i : ℕ), i < n →
      (_sum_row X n i ≠ 0 → _sum_row (_normalize_all X n) n i = 1) ∧
      (_sum_row X n i = 0 →
        (∀ q, _normalize_all X n i q = X i q) ∧
        ((∀ p q, 0 ≤ X p q) → ∀ q, q < n → _normalize_all X n i q = 0)) := by
  intro X n i hi
  refine ⟨fun hs => _normalize_all_rowsum X n i hi hs, fun hs => ⟨?_, ?_⟩⟩
  · exact _normalize_all_zero_row X n i hs
  · intro hX q hq
    rw [_normalize_all_zero_row X n i hs q]
    exact zero_row_all_zero X n i hX hs q hq

/-- Witness for C3 at a concrete matrix: row 0 has sum 4 and is rescaled to
sum 1; row 1 has sum 0 and stays all-zero. -/
theorem C3_normalize_witness :
    _sum_row (_normalize_all
        (fun p q => if p = 0 then (if q = 0 then 1 else 3) else 0) 2) 2 0 = 1 ∧
    _normalize_all
        (fun p q => if p = 0 then (if q = 0 then 1 else 3) else 0) 2 1 1 = 0 := by
  constructor
  · exact (C3_normalize
      (fun p q => if p = 0 then (if q = 0 then 1 else 3) else 0) 2 0
      (by norm_num)).1 (by with_unfolding_all decide)
  · exact ((C3_normalize
      (fun p q => if p = 0 then (if q = 0 then 1 else 3) else 0) 2 1
      (by norm_num)).2 (by with_unfolding_all decide)).2
      (fun p q => by split_ifs <;> norm_num) 1 (by norm_num)

/-- C4: a call of the dense sampler increments the sum accumulator exactly
`n_step` times, each increment adding the post-sweep state of the auxiliary
matrix (once per full sweep, not once per elementary move), and the returned
matrix is the `n_step`-fold sweep iterate whose conserved grand total equals
that of the input matrix. -/
theorem C4_accumulation :
    ∀ (C sumC X : Mat) (n n_step : ℕ) (s : ℚ) (rand : RunRand),
      (_update C sumC X n n_step s rand).2
        = sumC + ∑ t ∈ Finset.range n_step, sweepIter C n s rand X (t + 1) ∧
      (_update C sumC X n n_step s rand).1 = sweepIter C n s rand X n_step ∧
      _sum_all ((_update C sumC X n n_step s rand).1) n = _sum_all X n := by
  intro C sumC X n n_step s rand
  refine ⟨_update_snd C n s n_step sumC X rand,
    _update_fst C n s n_step sumC X rand, ?_⟩
  rw [_update_fst C n s n_step sumC X rand]
  exact sweepIter_sum_all C n s rand X n_step

/-- C6: the sparse sampler never updates a matrix position that is not
listed in the sparsity pattern `(I, J)`: after any number of sweeps, an
unlisted entry keeps its initial value, and in particular stays exactly 0 if
it started at 0. -/
theorem C6_sparse_frame :
    ∀ (C sumC X sumX : Mat) (I J : List ℕ) (n n_idx n_step : ℕ) (s : ℚ)
      (rand : RunRand) (R : Mat × Mat) (p q : ℕ),
      _update_sparse C sumC X sumX I J n n_idx n_step s rand = some R →
      (p, q) ∉ I.zip J →
      R.1 p q = X p q ∧ (X p q = 0 → R.1 p q = 0) := by
  intro C sumC X sumX I J n n_idx n_step s rand R p q h hpq
  unfold _update_sparse at h
  by_cases hv : validPattern I J n n_idx
  · rw [if_pos hv] at h
    rw [← Option.some.inj h]
    have := sparseRun_fst C (I.zip J) s n_step X sumX rand p q hpq
    exact ⟨this, fun h0 => by rw [this, h0]⟩
  · rw [if_neg hv] at h
    exact (Option.noConfusion h)

/-- Witness for C6 on the spec scenario: n = 3, pattern
(0,1),(1,0),(1,2),(2,1); the unlisted position (0,2) stays 0. -/
theorem C6_sparse_frame_witness :
    ((sparseRun (fun _ _ => 1) ([0, 1, 1, 2].zip [1, 0, 2, 1])
        (fun p q => if (p, q) ∈ [(0, 1), (1, 0), (1, 2), (2, 1)] then 1 else 0)
        (fun _ _ => 0) 2 1 (fun _ _ _ => ⟨1/2, true⟩)).1) 0 2 = 0 := by
  have h := C6_sparse_frame (fun _ _ => 1) (fun _ _ => 0)
    (fun p q => if (p, q) ∈ [(0, 1), (1, 0), (1, 2), (2, 1)] then 1 else 0)
    (fun _ _ => 0) [0, 1, 1, 2] [1, 0, 2, 1] 3 4 2 1
    (fun _ _ _ => ⟨1/2, true⟩) _ 0 2
    (by unfold _update_sparse; rw [if_pos (by decide)]) (by decide)
  exact h.2 (by decide)

/-- C7: the sampler consumes no hidden state — with the same pseudo-random
sequence and identical inputs, two runs of the dense update produce
identical auxiliary matrix and sum accumulator. -/
theorem C7_determinism :
    ∀ (C₁ C₂ sumC₁ sumC₂ X₁ X₂ : Mat) (n₁ n₂ k₁ k₂ : ℕ) (s₁ s₂ : ℚ)
      (rand₁ rand₂ : RunRand),
      C₁ = C₂ → sumC₁ = sumC₂ → X₁ = X₂ → n₁ = n₂ → k₁ = k₂ → s₁ = s₂ →
      rand₁ = rand₂ →
      _update C₁ sumC₁ X₁ n₁ k₁ s₁ rand₁ = _update C₂ sumC₂ X₂ n₂ k₂ s₂ rand₂ := by
  intro C₁ C₂ sumC₁ sumC₂ X₁ X₂ n₁ n₂ k₁ k₂ s₁ s₂ rand₁ rand₂ h1 h2 h3 h4 h5 h6 h7
  subst h1; subst h2; subst h3; subst h4; subst h5; subst h6; subst h7
  rfl

/-- Witness for C7 at concrete equal inputs. -/
theorem C7_determinism_witness :
    _update (fun _ _ => 1) (fun _ _ => 0) (fun _ _ => 1) 2 3 1
        (fun _ _ _ => ⟨1/2, true⟩)
      = _update (fun _ _ => 1) (fun _ _ => 0) (fun _ _ => 1) 2 3 1
        (fun _ _ _ => ⟨1/2, true⟩) :=
  C7_determinism (fun _ _ => 1) (fun _ _ => 1) (fun _ _ => 0) (fun _ _ => 0)
    (fun _ _ => 1) (fun _ _ => 1) 2 2 3 3 1 1
    (fun _ _ _ => ⟨1/2, true⟩) (fun _ _ _ => ⟨1/2, true⟩)
    rfl rfl rfl rfl rfl rfl rfl

/-- C8: sparse normalization takes each row's normalizing sum only over that
row's listed entries, rescales only listed entries, leaves unlisted entries
(and hence rows with no listed entries) untouched. -/
theorem C8_normalize_sparse :
    ∀ (X : Mat) (I J : List ℕ) (n n_idx : ℕ) (p q : ℕ),
      ((p, q) ∉ I.zip J → _normalize_all_sparse X I J n n_idx p q = X p q) ∧
      ((p, q) ∈ I.zip J → rowListedSum X (I.zip J) p ≠ 0 →
        _normalize_all_sparse X I J n n_idx p q
          = X p q / rowListedSum X (I.zip J) p) ∧
      ((I.zip J).filter (fun a => a.1 = p) = [] →
        _normalize_all_sparse X I J n n_idx p q = X p q) ∧
      (∀ Y : Mat, (∀ a ∈ I.zip J, a.1 = p → X a.1 a.2 = Y a.1 a.2) →
        rowListedSum X (I.zip J) p = rowListedSum Y (I.zip J) p) := by
  intro X I J n n_idx p q
  refine ⟨fun h => _normalize_all_sparse_unlisted X I J n n_idx p q h,
    fun hm hs => _normalize_all_sparse_listed X I J n n_idx p q hm hs,
    fun he => _normalize_all_sparse_empty_row X I J n n_idx p he q,
    fun Y hXY => rowListedSum_congr X Y (I.zip J) p hXY⟩

/-- Witness for C8 at a concrete pattern: entries (0,0) and (0,1) listed,
row 1 unlisted. -/
theorem C8_normalize_sparse_witness :
    _normalize_all_sparse (fun _ _ => 1) [0, 0] [0, 1] 2 2 0 1
      = (1 : ℚ) / rowListedSum (fun _ _ => 1) ([0, 0].zip [0, 1]) 0 ∧
    _normalize_all_sparse (fun _ _ => 1) [0, 0] [0, 1] 2 2 1 1 = 1 := by
  constructor
  · exact (C8_normalize_sparse (fun _ _ => 1) [0, 0] [0, 1] 2 2 0 1).2.1
      (by decide) (by with_unfolding_all decide)
  · exact (C8_normalize_sparse (fun _ _ => 1) [0, 0] [0, 1] 2 2 1 1).1
      (by decide)

/-- C9: both samplers check all preconditions before touching any buffer: a
call that fails its precondition returns the error value and the caller
observes the auxiliary matrix and accumulator exactly as they were, while a
valid call runs the sweeps. -/
theorem C9_preconditions :
    ∀ (C sumC X sumX : Mat) (I J : List ℕ) (n n_idx n_step : ℕ) (s : ℚ)
      (rand : RunRand),
      (¬ validPattern I J n n_idx →
        _update_sparse C sumC X sumX I J n n_idx n_step s rand = none ∧
        _update_sparse_result C sumC X sumX I J n n_idx n_step s rand
          = (X, sumX)) ∧
      (validPattern I J n n_idx →
        _update_sparse C sumC X sumX I J n n_idx n_step s rand
          = some (sparseRun C (I.zip J) X sumX n_step s rand)) ∧
      (¬ 0 < n → _update_checked C sumC X n n_step s rand = none ∧
        _update_result C sumC X n n_step s rand = (X, sumC)) ∧
      (0 < n → _update_checked C sumC X n n_step s rand
        = some (_update C sumC X n n_step s rand)) := by
  intro C sumC X sumX I J n n_idx n_step s rand
  refine ⟨fun hv => ?_, fun hv => ?_, fun hn => ?_, fun hn => ?_⟩
  · have h1 : _update_sparse C sumC X sumX I J n n_idx n_step s rand = none := by
      unfold _update_sparse
      rw [if_neg hv]
    refine ⟨h1, ?_⟩
    unfold _update_sparse_result
    rw [h1]
    rfl
  · unfold _update_sparse
    rw [if_pos hv]
  · have h1 : _update_checked C sumC X n n_step s rand = none := by
      unfold _update_checked
      rw [if_neg hn]
    refine ⟨h1, ?_⟩
    unfold _update_result
    rw [h1]
    rfl
  · unfold _update_checked
    rw [if_pos hn]

/-- Witness for C9: a malformed call (n = 0 with an out-of-range index list)
is rejected and the buffers are returned untouched. -/
theorem C9_preconditions_witness :
    _update_sparse (fun _ _ => 1) (fun _ _ => 0) (fun _ _ => 1) (fun _ _ => 0)
      [5] [1] 3 1 7 1 (fun _ _ _ => ⟨1/2, true⟩) = none ∧
    _update_sparse_result (fun _ _ => 1) (fun _ _ => 0) (fun _ _ => 1)
      (fun _ _ => 0) [5] [1] 3 1 7 1 (fun _ _ _ => ⟨1/2, true⟩)
      = ((fun _ _ => 1), (fun _ _ => 0)) :=
  (C9_preconditions (fun _ _ => 1) (fun _ _ => 0) (fun _ _ => 1)
    (fun _ _ => 0) [5] [1] 3 1 7 1 (fun _ _ _ => ⟨1/2, true⟩)).1
    (by decide)

/-- C10: the speed-test entry point is numerically identical to the sparse
sampler on every input: same validity behaviour, same auxiliary matrix, same
accumulated sum. -/
theorem C10_speedtest_equiv :
    ∀ (C sumC X sumX : Mat) (I J : List ℕ) (n n_idx n_step : ℕ) (s : ℚ)
      (rand : RunRand),
      _update_sparse_speedtest C sumC X sumX I J n n_idx n_step s rand
        = _update_sparse C sumC X sumX I J n n_idx n_step s rand := by
  intro C sumC X sumX I J n n_idx n_step s rand
  unfold _update_sparse_speedtest _update_sparse
  by_cases hv : validPattern I J n n_idx
  · rw [if_pos hv, if_pos hv, speedtestRun_eq]
  · rw [if_neg hv, if_neg hv]

/-- C5 counterexample: a dense matrix supported on the single entry (0,1)
and the sparse encoding of exactly that support (I = [0], J = [1]), run for
one sweep with the same random sequence, disagree at the corresponding
listed entry (0,1): the dense sweep moves mass into the diagonal
compensation positions, while the sparse sweep cannot touch the unlisted
diagonals and must leave the entry unchanged. -/
theorem C5_counterexample :
    ¬ (((_update_sparse (fun p q => if p = 0 ∧ q = 1 then 1 else 0)
        (fun _ _ => 0) (fun p q => if p = 0 ∧ q = 1 then 1 else 0)
        (fun _ _ => 0) [0] [1] 2 1 1 1
        (fun _ _ _ => ⟨-(1/2), true⟩)).getD
          ((fun _ _ => 0), (fun _ _ => 0))).1 0 1
      = (_update (fun p q => if p = 0 ∧ q = 1 then 1 else 0) (fun _ _ => 0)
        (fun p q => if p = 0 ∧ q = 1 then 1 else 0) 2 1 1
        (fun _ _ _ => ⟨-(1/2), true⟩)).1 0 1) := by
  with_unfolding_all decide

/-- C5 (amended): the sparse sampler coincides with the dense sampler — same
auxiliary matrix and same accumulated sum, given the same pseudo-random
sequence and any number of sweeps — provided the sparsity pattern is aligned
with the dense sweep: the listed pairs that actually move (upper-triangle,
count-eligible, with both diagonal compensation positions also listed) must
be exactly, and in the same row-major order, the count-eligible
upper-triangle pairs the dense sweep visits. -/
theorem C5_dense_sparse_equiv :
    ∀ (C sumC X sumX : Mat) (I J : List ℕ) (n n_idx n_step : ℕ) (s : ℚ)
      (rand : RunRand),
      validPattern I J n n_idx →
      (I.zip J).filter (fun p => decide (sparseGuard C (I.zip J) p)) =
        (densePairs n).filter (fun p => decide (eligiblePair C p)) →
      _update_sparse C sumC X sumX I J n n_idx n_step s rand
        = some (_update C sumX X n n_step s rand) := by
  intro C sumC X sumX I J n n_idx n_step s rand hv hfil
  unfold _update_sparse
  rw [if_pos hv, run_equiv C (I.zip J) n s hfil n_step X sumX rand]

/-- Witness for the amended C5: n = 2, all counts positive, pattern listing
both diagonals and the upper pair (0,1). -/
theorem C5_dense_sparse_equiv_witness :
    _update_sparse (fun _ _ => 1) (fun _ _ => 0) (fun _ _ => 1) (fun _ _ => 0)
      [0, 0, 1] [0, 1, 1] 2 3 5 1 (fun _ _ _ => ⟨1/2, true⟩)
      = some (_update (fun _ _ => 1) (fun _ _ => 0) (fun _ _ => 1) 2 5 1
          (fun _ _ _ => ⟨1/2, true⟩)) :=
  C5_dense_sparse_equiv (fun _ _ => 1) (fun _ _ => 0) (fun _ _ => 1)
    (fun _ _ => 0) [0, 0, 1] [0, 1, 1] 2 3 5 1 (fun _ _ _ => ⟨1/2, true⟩)
    (by decide) (by with_unfolding_all decide)
